import Mathlib

/-!
Verification of the least-squares solver library (`src/least_squares.rs`).

The Rust source operates on dense `f64` matrices.  The shallow embedding below
works with exact arithmetic: matrices over `ℚ` (and over `ℝ` where the source
uses the transcendental functions `exp`/`ln`).  The dense factorization
backends (faer Cholesky / LU / QR / SVD) are external collaborators; where a
claim is about control flow around a backend the backend is an explicit
function parameter, and where a claim is about the numeric result the backend
is modelled by the exact inverse / exact linear solve, which is what the
backend computes on invertible input in exact arithmetic.
-/

open scoped Matrix

/-- Square/rectangular rational matrices, the embedding of `Array2<f64>`. -/
abbrev Mat (k r : ℕ) := Matrix (Fin k) (Fin r) ℚ

/-- Exact-arithmetic model of the LU-with-partial-pivoting inverse backend
(`faer partial_piv_lu().inverse()`): on invertible input it returns the true
inverse; on singular input the backend returns an undefined numeric result,
modelled here by the zero matrix (`det⁻¹ = 0`). -/
def mInv {k : ℕ} (A : Mat k k) : Mat k k := A.det⁻¹ • A.adjugate

/-- Exact-arithmetic model of the numeric result of
`solve_normal_equations(xtx, xty, use_cholesky)`: both the Cholesky path and
the LU path compute the exact solution `xtx⁻¹ · xty` on invertible input, so
the `use_cholesky` flag does not change the modelled value. -/
def solveNE {k : ℕ} (xtx : Mat k k) (xty : Fin k → ℚ) : Fin k → ℚ :=
  mInv xtx *ᵥ xty

/-- Embedding of `soft_threshold` from the source.  `x.signum()` in Rust is
`1.0` for non-negative `x` (including `+0.0`) and `-1.0` for negative `x`;
`ℚ` has no negative zero. -/
def soft_threshold (x alpha : ℚ) (positive : Bool) : ℚ :=
  let result := (if x < 0 then (-1 : ℚ) else 1) * max (|x| - alpha) 0
  if positive then max result 0 else result

/-- Mathematical sign function (`0` at `0`), used to state the spec formula
`sign(x)·max(|x|−alpha, 0)` for `soft_threshold`. -/
def signQ (x : ℚ) : ℚ := if x < 0 then -1 else if x = 0 then 0 else 1

/-! ## Elastic net coordinate descent (`solve_elastic_net`) -/

/-- One coordinate update of the cyclic coordinate-descent loop in
`solve_elastic_net`: add feature `j`'s contribution back into the residual,
soft-threshold the correlation, divide by `xtx[j,j] + alpha·(1−l1_ratio)`,
then subtract the updated contribution.  The state is the pair
`(w, residuals)`; `alpha` arrives already scaled by `n_samples`. -/
def en_coord {n k : ℕ} (x : Matrix (Fin n) (Fin k) ℚ) (xtx : Mat k k)
    (alpha l1r : ℚ) (positive : Bool)
    (s : (Fin k → ℚ) × (Fin n → ℚ)) (j : Fin k) :
    (Fin k → ℚ) × (Fin n → ℚ) :=
  let xj : Fin n → ℚ := fun i => x i j
  let res1 : Fin n → ℚ := fun i => s.2 i + xj i * s.1 j
  let wj := soft_threshold (xj ⬝ᵥ res1) (alpha * l1r) positive
      / (xtx j j + alpha * (1 - l1r))
  (Function.update s.1 j wj, fun i => res1 i - xj i * wj)

/-- One full cyclic pass over all `k` coordinates (`for j in 0..n_features`). -/
def en_pass {n k : ℕ} (x : Matrix (Fin n) (Fin k) ℚ) (xtx : Mat k k)
    (alpha l1r : ℚ) (positive : Bool)
    (s : (Fin k → ℚ) × (Fin n → ℚ)) : (Fin k → ℚ) × (Fin n → ℚ) :=
  (List.finRange k).foldl (en_coord x xtx alpha l1r positive) s

/-- The outer loop `for _ in 0..max_iter` of `solve_elastic_net`: run a pass,
then stop if the Euclidean norm of the coefficient change is below `tol`
(`‖w − w_old‖ < tol` is compared via squares, exactly equivalent for the
non-negative norm). -/
def en_loop {n k : ℕ} (x : Matrix (Fin n) (Fin k) ℚ) (xtx : Mat k k)
    (alpha l1r : ℚ) (positive : Bool) (tol : ℚ) :
    ℕ → (Fin k → ℚ) × (Fin n → ℚ) → (Fin k → ℚ) × (Fin n → ℚ)
  | 0, s => s
  | m + 1, s =>
    let s' := en_pass x xtx alpha l1r positive s
    if 0 < tol ∧ (∑ i, (s'.1 i - s.1 i) ^ 2) < tol ^ 2 then s'
    else en_loop x xtx alpha l1r positive tol m s'

/-- Embedding of `solve_elastic_net`: defaults `l1_ratio = 0.5`,
`max_iter = 1000`, `tol = 1e-5`, `positive = false`; coefficients start at
zero, the residual starts at `y`, `alpha` is pre-scaled by the sample count,
and the final coefficients are returned unconditionally. -/
def solve_elastic_net {n k : ℕ} (y : Fin n → ℚ) (x : Matrix (Fin n) (Fin k) ℚ)
    (alpha : ℚ) (l1r : Option ℚ) (max_iter : Option ℕ) (tol : Option ℚ)
    (positive : Option Bool) : Fin k → ℚ :=
  let l1r := l1r.getD (1 / 2)
  let max_iter := max_iter.getD 1000
  let tol := tol.getD (1 / 100000)
  let positive := positive.getD false
  let xtx := xᵀ * x
  let alpha := alpha * (n : ℚ)
  (en_loop x xtx alpha l1r positive tol max_iter (fun _ => 0, y)).1

/-! ## Recursive least squares (`RecursiveLeastSquares`) -/

/-- The state of the online estimator: forgetting factor, coefficient vector,
state covariance `P` and Kalman gain `K`.  Generic over the scalar field so
the update algebra can be stated once for `ℝ` (where `new` lives, because of
`exp`/`ln`) and evaluated over `ℚ` in witnesses. -/
structure RecursiveLeastSquares (F : Type) (m : ℕ) where
  forgetting_factor : F
  coef : Fin m → F
  p : Matrix (Fin m) (Fin m) F
  k : Fin m → F

/-- Embedding of `RecursiveLeastSquares::update`, mirroring the sequence of
in-place assignments of the source: `k` is assigned first, then `coef` (using
the new `k` and the old `coef`), then `p` (using the new `k` and the old `p`). -/
def RecursiveLeastSquares.update {F : Type} [Field F] {m : ℕ}
    (s : RecursiveLeastSquares F m) (x : Fin m → F) (y : F) :
    RecursiveLeastSquares F m :=
  let r := 1 + (x ᵥ* s.p) ⬝ᵥ x / s.forgetting_factor
  let s1 := { s with k := fun i => (s.p *ᵥ x) i / (r * s.forgetting_factor) }
  let residuals := y - x ⬝ᵥ s1.coef
  let s2 := { s1 with coef := fun i => s1.coef i + s1.k i * residuals }
  { s2 with
    p := Matrix.of fun i j =>
      s2.p i j / s2.forgetting_factor - s2.k i * s2.k j * r }

/-- Embedding of `RecursiveLeastSquares::new`: the forgetting factor is
`exp(ln(0.5)/half_life)` when a half-life is supplied and `1.0` otherwise;
`coef` starts at the optional initial mean (default zero), `P` at `lam·I`,
and the gain at zero. -/
noncomputable def RecursiveLeastSquares.new (m : ℕ) (lam : ℝ)
    (half_life : Option ℝ) (initial_state_mean : Option (Fin m → ℝ)) :
    RecursiveLeastSquares ℝ m :=
  { forgetting_factor :=
      match half_life with
      | some h => Real.exp (Real.log 0.5 / h)
      | none => 1
    coef := initial_state_mean.getD fun _ => 0
    p := lam • (1 : Matrix (Fin m) (Fin m) ℝ)
    k := fun _ => 0 }

/-- State of the `solve_recursive_least_squares` driver after `t` loop
iterations: the estimator is updated at step `t` only when `is_valid[t]`. -/
noncomputable def rlsStateAt (m : ℕ) (y : ℕ → ℝ) (x : ℕ → Fin m → ℝ)
    (half_life : Option ℝ) (initial_state_covariance : Option ℝ)
    (initial_state_mean : Option (Fin m → ℝ)) (is_valid : ℕ → Bool) :
    ℕ → RecursiveLeastSquares ℝ m
  | 0 => RecursiveLeastSquares.new m (initial_state_covariance.getD 10.0)
      half_life initial_state_mean
  | t + 1 =>
    let s := rlsStateAt m y x half_life initial_state_covariance
        initial_state_mean is_valid t
    if is_valid t then s.update (x t) (y t) else s

/-- Embedding of `solve_recursive_least_squares`: after every loop iteration
(valid or not) the current coefficient vector is recorded, producing one
output row per input sample. -/
noncomputable def solve_recursive_least_squares (m : ℕ) (y : ℕ → ℝ)
    (x : ℕ → Fin m → ℝ) (n : ℕ) (half_life : Option ℝ)
    (initial_state_covariance : Option ℝ)
    (initial_state_mean : Option (Fin m → ℝ)) (is_valid : ℕ → Bool) :
    List (Fin m → ℝ) :=
  (List.range n).map fun t =>
    (rlsStateAt m y x half_life initial_state_covariance initial_state_mean
      is_valid (t + 1)).coef

/-! ## Woodbury update and the rolling-window engine -/

/-- Embedding of `outer_product`: the column-vector/row-vector product
`u·vᵀ` as a `k×k` matrix. -/
def outer_product {k : ℕ} (u v : Fin k → ℚ) : Mat k k :=
  Matrix.of fun i j => u i * v j

/-- Embedding of `inv_diag`: the zero matrix with the per-element reciprocal
of the input's diagonal written onto its diagonal (`f64::recip`). -/
def inv_diag {r : ℕ} (c : Mat r r) : Mat r r :=
  Matrix.of fun i j => if i = j then (c i i)⁻¹ else 0

/-- Embedding of `woodbury_update`: computes
`A⁻¹ − A⁻¹·U·(C⁻¹ + V·A⁻¹·U)⁻¹·V·A⁻¹` where `C⁻¹` is the per-element diagonal
reciprocal when `c_is_diag == Some(true)` and the LU-backend inverse
otherwise, and the middle inverse uses the LU backend (`inv(·, false)`,
modelled exactly by `mInv`). -/
def woodbury_update {k r : ℕ} (a_inv : Mat k k) (u : Mat k r) (c : Mat r r)
    (v : Mat r k) (c_is_diag : Option Bool) : Mat k k :=
  let inv_c := if c_is_diag = some true then inv_diag c else mInv c
  let v_inv_a := v * a_inv
  let inv_a_u := a_inv * u
  let intermediate := mInv (inv_c + v * inv_a_u)
  a_inv - inv_a_u * intermediate * v_inv_a

/-- Embedding of `update_xtx_inv`: rank-`r` Woodbury update of `inv(XᵀX)`
with `U = x_updateᵀ`, `V = Uᵀ`, `C` defaulting to the identity, and the
diagonal short-circuit enabled. -/
def update_xtx_inv {k r : ℕ} (xtx_inv : Mat k k) (x_update : Mat r k)
    (c : Option (Mat r r)) : Mat k k :=
  let u := x_updateᵀ
  let v := uᵀ
  woodbury_update xtx_inv u (c.getD 1) v (some true)

/-- The warm-up slice `x[..min_periods, ..]` of the design stream. -/
def warmX (k : ℕ) (X : ℕ → Fin k → ℚ) (mp : ℕ) : Matrix (Fin mp) (Fin k) ℚ :=
  Matrix.of fun t j => X t j

/-- Warm-up `XᵀX` of `solve_rolling_ols`, over the first `min_periods` rows,
with the ridge penalty `alpha·I` added when `alpha > 0`. -/
def gram0 (k : ℕ) (X : ℕ → Fin k → ℚ) (mp : ℕ) (alpha : ℚ) : Mat k k :=
  (warmX k X mp)ᵀ * warmX k X mp +
    (if 0 < alpha then alpha • (1 : Mat k k) else 0)

/-- Warm-up `XᵀY` of `solve_rolling_ols`, over the first `min_periods` rows. -/
def xty0 (k : ℕ) (y : ℕ → ℚ) (X : ℕ → Fin k → ℚ) (mp : ℕ) : Fin k → ℚ :=
  (warmX k X mp)ᵀ *ᵥ fun t : Fin mp => y t

/-- The sliding-window `XᵀX` maintained by the naive branch of
`solve_rolling_ols` after `j` loop iterations (`j = 0` is the warm-up state):
iteration `j+1` processes time index `i = min_periods + j`, adds the outer
product of row `i` and, once the window is full (`i > window_size − 1`),
subtracts the outer product of the departing row `i − window_size`. -/
def gramAt (k : ℕ) (X : ℕ → Fin k → ℚ) (w mp : ℕ) (alpha : ℚ) : ℕ → Mat k k
  | 0 => gram0 k X mp alpha
  | j + 1 =>
    let i := mp + j
    let g1 := gramAt k X w mp alpha j + outer_product (X i) (X i)
    if w - 1 < i then g1 - outer_product (X (i - w)) (X (i - w)) else g1

/-- The sliding-window `XᵀY` maintained by both branches of
`solve_rolling_ols` after `j` loop iterations. -/
def xtyAt (k : ℕ) (y : ℕ → ℚ) (X : ℕ → Fin k → ℚ) (w mp : ℕ) :
    ℕ → Fin k → ℚ
  | 0 => xty0 k y X mp
  | j + 1 =>
    let i := mp + j
    let v1 := xtyAt k y X w mp j + y i • X i
    if w - 1 < i then v1 - y (i - w) • X (i - w) else v1

/-- The 2-row update block of the Woodbury branch: row 0 is the negated
departing row (the source stacks `[x_prev, x_new]` and negates row 0),
row 1 the arriving row. -/
def stack2 {k : ℕ} (u v : Fin k → ℚ) : Matrix (Fin 2) (Fin k) ℚ :=
  Matrix.of ![u, v]

/-- The rank-2 combination matrix `C = [[-1, 0], [0, 1]]` ("drop old, add
new") of the Woodbury branch. -/
def cDropAdd : Mat 2 2 := !![-1, 0; 0, 1]

/-- The cached `inv(XᵀX)` maintained by the Woodbury branch of
`solve_rolling_ols` after `j` loop iterations: the warm-up state is a direct
LU inverse; before the window is full each step is a rank-1 Woodbury update
(default `C` = identity), afterwards a single rank-2 update with
`C = [[-1,0],[0,1]]`. -/
def winvAt (k : ℕ) (y : ℕ → ℚ) (X : ℕ → Fin k → ℚ) (w mp : ℕ) (alpha : ℚ) :
    ℕ → Mat k k
  | 0 => mInv (gram0 k X mp alpha)
  | j + 1 =>
    let i := mp + j
    if w - 1 < i then
      update_xtx_inv (winvAt k y X w mp alpha j)
        (stack2 (fun a => -X (i - w) a) (X i)) (some cDropAdd)
    else
      update_xtx_inv (winvAt k y X w mp alpha j)
        (Matrix.of ![X i]) none

/-- Embedding of `solve_rolling_ols`.  `min_periods` defaults to
`min(k, window_size)`, `use_woodbury` to `k > 60`, `alpha` to `0`.  The
output is the `n×k` coefficient matrix, one optional row per time index:
`none` models a NaN-filled placeholder row.  The source initializes every
row to NaN, writes the warm-up coefficients into row `min_periods − 1`, and
iteration `i ∈ [min_periods, n)` writes row `i` (each row is written at most
once), which the row-indexed definition below reproduces. -/
def solve_rolling_ols (k : ℕ) (y : ℕ → ℚ) (X : ℕ → Fin k → ℚ) (n : ℕ)
    (window_size : ℕ) (min_periods : Option ℕ) (use_woodbury : Option Bool)
    (alpha : Option ℚ) : ℕ → Option (Fin k → ℚ) :=
  let w := window_size
  let mp := min_periods.getD (min k w)
  let uw := use_woodbury.getD (decide (60 < k))
  let a := (alpha.getD 0)
  fun t =>
    if t < n then
      if t + 1 < mp then none
      else if t + 1 = mp then
        if uw then some ((mInv (gram0 k X mp a))ᵀ *ᵥ xty0 k y X mp)
        else some (solveNE (gram0 k X mp a) (xty0 k y X mp))
      else
        let j := t + 1 - mp
        if uw then some (winvAt k y X w mp a j *ᵥ xtyAt k y X w mp j)
        else some (solveNE (gramAt k X w mp a j) (xtyAt k y X w mp j))
    else none

/-! ## Direct OLS solver and the dense primitives' control flow -/

/-- The `SolveMethod` enum of the source. -/
inductive SolveMethod
  | QR
  | SVD
  | Cholesky
  | LU
  | CD
deriving DecidableEq

/-- Embedding of `solve_ols`.  The QR and SVD factorizations are external
backends, passed as function parameters; the `panic!` for unsupported
methods is modelled as `Except.error`.  The method is selected first (QR or
SVD as requested, the shape-based automatic choice for `None`, an error for
anything else), then the chosen backend runs. -/
def solve_ols {n k : ℕ} (qr : (Fin n → ℚ) → Matrix (Fin n) (Fin k) ℚ → Fin k → ℚ)
    (svd : (Fin n → ℚ) → Matrix (Fin n) (Fin k) ℚ → Option ℚ → Fin k → ℚ)
    (y : Fin n → ℚ) (x : Matrix (Fin n) (Fin k) ℚ)
    (solve_method : Option SolveMethod) (rcond : Option ℚ) :
    Except String (Fin k → ℚ) :=
  let n_features := k
  let n_samples := n
  let chosen : Except String SolveMethod :=
    match solve_method with
    | some SolveMethod.QR => Except.ok SolveMethod.QR
    | some SolveMethod.SVD => Except.ok SolveMethod.SVD
    | none =>
      Except.ok (if n_samples > n_features then SolveMethod.QR else SolveMethod.SVD)
    | _ =>
      Except.error "Only QR and SVD are currently supported solve methods for OLS."
  chosen.bind fun m =>
    if m = SolveMethod.QR then Except.ok (qr y x) else Except.ok (svd y x rcond)

/-- Embedding of `inv` (control-flow view).  The Cholesky backend is a
function parameter returning `some` factorization inverse on success and
`none` on failure; the LU backend always returns a matrix.  The second
component collects the console diagnostics: the fallback prints a notice and
never turns into a failure. -/
def inv {k : ℕ} (chol : Mat k k → Option (Mat k k)) (lu : Mat k k → Mat k k)
    (a : Mat k k) (use_cholesky : Bool) : Mat k k × List String :=
  if use_cholesky then
    match chol a with
    | some ci => (ci, [])
    | none => (lu a, ["Cholesky decomposition failed, falling back to LU decomposition"])
  else (lu a, [])

/-- Embedding of `solve_normal_equations` (control-flow view), with the same
Cholesky-then-LU fallback policy as `inv`: the Cholesky solve backend may
fail (`none`), the LU solve backend always produces a vector. -/
def solve_normal_equations {k : ℕ}
    (chol_solve : Mat k k → (Fin k → ℚ) → Option (Fin k → ℚ))
    (lu_solve : Mat k k → (Fin k → ℚ) → Fin k → ℚ)
    (xtx : Mat k k) (xty : Fin k → ℚ) (use_cholesky : Bool) :
    (Fin k → ℚ) × List String :=
  if use_cholesky then
    match chol_solve xtx xty with
    | some v => (v, [])
    | none => (lu_solve xtx xty, ["Cholesky decomposition failed, falling back to LU decomposition"])
  else (lu_solve xtx xty, [])

/-! ## Helper lemmas: Woodbury update correctness -/

theorem mInv_eq_inv {k : ℕ} (A : Mat k k) : mInv A = A⁻¹ := by
  rw [Matrix.inv_def, mInv, Ring.inverse_eq_inv']

theorem inv_diag_diagonal {r : ℕ} (d : Fin r → ℚ) :
    inv_diag (Matrix.diagonal d) = Matrix.diagonal fun i => (d i)⁻¹ := by
  ext i j
  by_cases h : i = j <;>
    simp [inv_diag, Matrix.diagonal_apply, h]

theorem inv_diag_eq_inv {r : ℕ} (d : Fin r → ℚ) (hd : ∀ i, d i ≠ 0) :
    inv_diag (Matrix.diagonal d) = (Matrix.diagonal d)⁻¹ := by
  rw [inv_diag_diagonal]
  symm
  apply Matrix.inv_eq_right_inv
  rw [Matrix.diagonal_mul_diagonal]
  rw [show (fun i => d i * (d i)⁻¹) = fun _ => (1 : ℚ) by
    funext i; exact mul_inv_cancel₀ (hd i)]
  exact Matrix.diagonal_one

theorem det_add_mul_mul {k r : ℕ} (A : Mat k k) (U : Mat k r) (C : Mat r r)
    (V : Mat r k) (hA : IsUnit A.det) (hC : IsUnit C.det) :
    (A + U * C * V).det = A.det * C.det * (C⁻¹ + V * A⁻¹ * U).det := by
  have h1 : A + U * C * V = A * (1 + A⁻¹ * U * C * V) := by
    rw [Matrix.mul_add, Matrix.mul_one]
    rw [show A * (A⁻¹ * U * C * V) = A * A⁻¹ * U * C * V by
      simp only [Matrix.mul_assoc]]
    rw [Matrix.mul_nonsing_inv A hA, Matrix.one_mul]
  have h2 : (1 + A⁻¹ * U * C * V : Mat k k).det
      = (1 + C * V * A⁻¹ * U : Mat r r).det := by
    rw [show (A⁻¹ * U * C * V : Mat k k) = A⁻¹ * U * (C * V) by
      simp only [Matrix.mul_assoc]]
    rw [Matrix.det_one_add_mul_comm (A⁻¹ * U) (C * V)]
    simp only [Matrix.mul_assoc]
  have h3 : (1 + C * V * A⁻¹ * U : Mat r r) = C * (C⁻¹ + V * A⁻¹ * U) := by
    rw [Matrix.mul_add, Matrix.mul_nonsing_inv C hC]
    simp only [Matrix.mul_assoc]
  rw [h1, Matrix.det_mul, h2, h3, Matrix.det_mul]
  ring

theorem woodbury_update_eq {k r : ℕ} (A : Mat k k) (U : Mat k r) (C : Mat r r)
    (V : Mat r k) (flag : Option Bool) (hA : IsUnit A.det) (hC : IsUnit C.det)
    (hS : IsUnit (A + U * C * V).det)
    (hflag : (if flag = some true then inv_diag C else mInv C) = C⁻¹) :
    woodbury_update A⁻¹ U C V flag
        = A⁻¹ - A⁻¹ * U * (C⁻¹ + V * A⁻¹ * U)⁻¹ * V * A⁻¹ ∧
      woodbury_update A⁻¹ U C V flag = (A + U * C * V)⁻¹ := by
  have hM : IsUnit (C⁻¹ + V * A⁻¹ * U).det := by
    have h := det_add_mul_mul A U C V hA hC
    rw [h] at hS
    exact isUnit_of_mul_isUnit_right hS
  have h1 : woodbury_update A⁻¹ U C V flag
      = A⁻¹ - A⁻¹ * U * (C⁻¹ + V * A⁻¹ * U)⁻¹ * V * A⁻¹ := by
    simp only [woodbury_update]
    rw [hflag]
    simp only [mInv_eq_inv, Matrix.mul_assoc]
  refine ⟨h1, ?_⟩
  rw [h1]
  rw [← Matrix.add_mul_mul_inv_eq_sub A U C V
    ((Matrix.isUnit_iff_isUnit_det A).mpr hA)
    ((Matrix.isUnit_iff_isUnit_det C).mpr hC)
    ((Matrix.isUnit_iff_isUnit_det _).mpr hM)]

theorem update_xtx_inv_correct {k r : ℕ} (A : Mat k k) (x_update : Mat r k)
    (C : Mat r r) (hA : IsUnit A.det) (hC : IsUnit C.det)
    (hdiag : inv_diag C = C⁻¹)
    (hS : IsUnit (A + x_updateᵀ * C * x_update).det) :
    update_xtx_inv A⁻¹ x_update (some C)
      = (A + x_updateᵀ * C * x_update)⁻¹ := by
  have h := (woodbury_update_eq A x_updateᵀ C x_update (some true) hA hC hS
    (by rw [if_pos rfl]; exact hdiag)).2
  rw [update_xtx_inv, Matrix.transpose_transpose]
  exact h

theorem update_xtx_inv_none_correct {k r : ℕ} (A : Mat k k)
    (x_update : Mat r k) (hA : IsUnit A.det)
    (hS : IsUnit (A + x_updateᵀ * x_update).det) :
    update_xtx_inv A⁻¹ x_update none = (A + x_updateᵀ * x_update)⁻¹ := by
  have hC : IsUnit (1 : Mat r r).det := by simp
  have hdiag : inv_diag (1 : Mat r r) = (1 : Mat r r)⁻¹ := by
    rw [← Matrix.diagonal_one, inv_diag_eq_inv (fun _ => (1 : ℚ)) (by norm_num)]
  have hS1 : IsUnit (A + x_updateᵀ * (1 : Mat r r) * x_update).det := by
    rwa [Matrix.mul_one]
  have h := (woodbury_update_eq A x_updateᵀ 1 x_update (some true) hA hC hS1
    (by rw [if_pos rfl]; exact hdiag)).2
  rw [update_xtx_inv, Matrix.transpose_transpose]
  simp only [Option.getD_none]
  rw [h, Matrix.mul_one]

/-! ## Helper lemmas: the rolling window state -/

theorem cDropAdd_diagonal : cDropAdd = Matrix.diagonal ![(-1 : ℚ), 1] := by
  ext i j
  fin_cases i <;> fin_cases j <;>
    simp [cDropAdd, Matrix.diagonal_apply]

theorem inv_diag_cDropAdd : inv_diag cDropAdd = cDropAdd⁻¹ := by
  rw [cDropAdd_diagonal, inv_diag_eq_inv]
  intro i
  fin_cases i <;> norm_num

theorem isUnit_det_cDropAdd : IsUnit cDropAdd.det := by
  rw [show cDropAdd.det = -1 by
    rw [cDropAdd, Matrix.det_fin_two_of]; norm_num]
  exact isUnit_one.neg

theorem stack2_block {k : ℕ} (a b : Fin k → ℚ) :
    (stack2 a b)ᵀ * cDropAdd * stack2 a b
      = outer_product b b - outer_product a a := by
  ext i j
  simp [stack2, cDropAdd, outer_product, Matrix.mul_apply, Fin.sum_univ_two,
    Matrix.vecHead, Matrix.vecTail]
  ring

theorem row1_block {k : ℕ} (u : Fin k → ℚ) :
    (Matrix.of ![u])ᵀ * Matrix.of ![u] = outer_product u u := by
  ext i j
  simp [outer_product, Matrix.mul_apply]

/-- The warm-up `XᵀX` is the sum of the outer products of the first
`min_periods` rows, plus the optional ridge term. -/
theorem gram0_eq_sum (k : ℕ) (X : ℕ → Fin k → ℚ) (mp : ℕ) (alpha : ℚ) :
    gram0 k X mp alpha
      = (∑ t ∈ Finset.range mp, outer_product (X t) (X t)) +
        (if 0 < alpha then alpha • (1 : Mat k k) else 0) := by
  unfold gram0
  congr 1
  ext i j
  rw [Matrix.mul_apply, Matrix.sum_apply]
  rw [← Fin.sum_univ_eq_sum_range (fun t => outer_product (X t) (X t) i j) mp]
  simp [warmX, outer_product]

/-- The warm-up `XᵀY` is the sum of the first `min_periods` rows of `X`
scaled by the matching targets. -/
theorem xty0_eq_sum (k : ℕ) (y : ℕ → ℚ) (X : ℕ → Fin k → ℚ) (mp : ℕ) :
    xty0 k y X mp = ∑ t ∈ Finset.range mp, y t • X t := by
  funext j
  rw [xty0, Matrix.mulVec, Finset.sum_apply]
  rw [← Fin.sum_univ_eq_sum_range (fun t => (y t • X t) j) mp]
  simp [warmX, Matrix.dotProduct, mul_comm]

theorem gram0_transpose (k : ℕ) (X : ℕ → Fin k → ℚ) (mp : ℕ) (alpha : ℚ) :
    (gram0 k X mp alpha)ᵀ = gram0 k X mp alpha := by
  unfold gram0
  rw [Matrix.transpose_add, Matrix.transpose_mul, Matrix.transpose_transpose]
  congr 1
  by_cases h : 0 < alpha <;> simp [h]

theorem mInv_transpose {k : ℕ} (A : Mat k k) (h : Aᵀ = A) :
    (mInv A)ᵀ = mInv A := by
  rw [mInv_eq_inv, Matrix.transpose_nonsing_inv, h]

/-- The cached inverse maintained by the Woodbury branch equals the true
inverse of the naive branch's sliding-window `XᵀX`, as long as every
windowed Gram matrix encountered so far is invertible. -/
theorem winvAt_eq_inv (k : ℕ) (y : ℕ → ℚ) (X : ℕ → Fin k → ℚ) (w mp : ℕ)
    (alpha : ℚ) (j : ℕ)
    (hinv : ∀ j', j' ≤ j → (gramAt k X w mp alpha j').det ≠ 0) :
    winvAt k y X w mp alpha j = (gramAt k X w mp alpha j)⁻¹ := by
  induction j with
  | zero =>
    rw [winvAt, gramAt, mInv_eq_inv]
  | succ j ih =>
    have hj : winvAt k y X w mp alpha j = (gramAt k X w mp alpha j)⁻¹ :=
      ih fun j' h => hinv j' (Nat.le_succ_of_le h)
    have hA : IsUnit (gramAt k X w mp alpha j).det :=
      isUnit_iff_ne_zero.mpr (hinv j (Nat.le_succ j))
    have hA' : IsUnit (gramAt k X w mp alpha (j + 1)).det :=
      isUnit_iff_ne_zero.mpr (hinv (j + 1) le_rfl)
    by_cases hfull : w - 1 < mp + j
    · have hshape : gramAt k X w mp alpha (j + 1)
          = gramAt k X w mp alpha j +
            (stack2 (fun a => -X (mp + j - w) a) (X (mp + j)))ᵀ * cDropAdd *
              stack2 (fun a => -X (mp + j - w) a) (X (mp + j)) := by
        rw [stack2_block, gramAt]
        simp only [if_pos hfull]
        rw [show outer_product (fun a => -X (mp + j - w) a) (fun a => -X (mp + j - w) a)
            = outer_product (X (mp + j - w)) (X (mp + j - w)) by
          ext i j'; simp [outer_product]]
        abel
      rw [winvAt]
      simp only [if_pos hfull]
      rw [hj, hshape]
      exact update_xtx_inv_correct _ _ _ hA isUnit_det_cDropAdd
        inv_diag_cDropAdd (hshape ▸ hA')
    · have hshape : gramAt k X w mp alpha (j + 1)
          = gramAt k X w mp alpha j +
            (Matrix.of ![X (mp + j)])ᵀ * Matrix.of ![X (mp + j)] := by
        rw [row1_block, gramAt]
        simp only [if_neg hfull]
      rw [winvAt]
      simp only [if_neg hfull]
      rw [hj, hshape]
      exact update_xtx_inv_none_correct _ _ hA (hshape ▸ hA')

/-! ## Helper lemmas: elastic-net residual invariant -/

/-- The residual invariant `r = y − X·w` is preserved by a single coordinate
update (the add-back/subtract-out bookkeeping is exact). -/
theorem en_coord_residual {n k : ℕ} (x : Matrix (Fin n) (Fin k) ℚ)
    (xtx : Mat k k) (alpha l1r : ℚ) (positive : Bool) (y : Fin n → ℚ)
    (s : (Fin k → ℚ) × (Fin n → ℚ)) (j : Fin k)
    (h : s.2 = fun i => y i - ∑ jj, x i jj * s.1 jj) :
    (en_coord x xtx alpha l1r positive s j).2
      = fun i => y i -
          ∑ jj, x i jj * (en_coord x xtx alpha l1r positive s j).1 jj := by
  funext i
  have hupd : ∀ (v : ℚ),
      (fun jj => x i jj * Function.update s.1 j v jj)
        = Function.update (fun jj => x i jj * s.1 jj) j (x i j * v) := by
    intro v
    funext jj
    by_cases hjj : jj = j
    · subst hjj; simp
    · simp [Function.update, hjj]
  have hsum : ∀ (v : ℚ),
      (∑ jj, x i jj * Function.update s.1 j v jj)
        = x i j * v + ∑ jj ∈ Finset.univ \ {j}, x i jj * s.1 jj := by
    intro v
    rw [hupd v, Finset.sum_update_of_mem (Finset.mem_univ j)]
  have hold : (∑ jj, x i jj * s.1 jj)
      = x i j * s.1 j + ∑ jj ∈ Finset.univ \ {j}, x i jj * s.1 jj := by
    have h1 := hsum (s.1 j)
    rwa [Function.update_eq_self] at h1
  simp only [en_coord]
  rw [hsum]
  have h2 := congrFun h i
  simp only at h2
  rw [h2, hold]
  ring

/-- The residual invariant is preserved by a full coordinate-descent pass. -/
theorem en_pass_residual {n k : ℕ} (x : Matrix (Fin n) (Fin k) ℚ)
    (xtx : Mat k k) (alpha l1r : ℚ) (positive : Bool) (y : Fin n → ℚ)
    (s : (Fin k → ℚ) × (Fin n → ℚ))
    (h : s.2 = fun i => y i - ∑ jj, x i jj * s.1 jj) :
    (en_pass x xtx alpha l1r positive s).2
      = fun i => y i -
          ∑ jj, x i jj * (en_pass x xtx alpha l1r positive s).1 jj := by
  rw [en_pass]
  generalize List.finRange k = l
  induction l generalizing s with
  | nil => simpa using h
  | cons a l ih =>
    rw [List.foldl_cons]
    exact ih _ (en_coord_residual x xtx alpha l1r positive y s a h)

/-- The residual invariant is preserved by the outer iteration loop. -/
theorem en_loop_residual {n k : ℕ} (x : Matrix (Fin n) (Fin k) ℚ)
    (xtx : Mat k k) (alpha l1r : ℚ) (positive : Bool) (tol : ℚ)
    (y : Fin n → ℚ) (m : ℕ) (s : (Fin k → ℚ) × (Fin n → ℚ))
    (h : s.2 = fun i => y i - ∑ jj, x i jj * s.1 jj) :
    (en_loop x xtx alpha l1r positive tol m s).2
      = fun i => y i -
          ∑ jj, x i jj * (en_loop x xtx alpha l1r positive tol m s).1 jj := by
  induction m generalizing s with
  | zero => simpa [en_loop] using h
  | succ m ih =>
    rw [en_loop]
    have hp := en_pass_residual x xtx alpha l1r positive y s h
    by_cases hc : 0 < tol ∧
        (∑ i, ((en_pass x xtx alpha l1r positive s).1 i - s.1 i) ^ 2) < tol ^ 2
    · simp only [if_pos hc]
      exact hp
    · simp only [if_neg hc]
      exact ih _ hp

/-! ## Claim theorems -/

/-- C9: for every `x` and every non-negative threshold `alpha`,
`soft_threshold(x, alpha, false) = sign(x)·max(|x|−alpha, 0)`, and
`soft_threshold(x, alpha, true)` additionally clips negative results to `0`;
in particular `soft_threshold(3,1,false) = 2`,
`soft_threshold(-3,5,false) = 0` and `soft_threshold(-3,1,true) = 0`.
(For `alpha < 0` the two sides can differ at `x = 0` only because Rust's
`signum` returns `1` at zero while the mathematical sign is `0`; every
threshold passed by this library is non-negative.) -/
theorem claim_C9_soft_threshold (x alpha : ℚ) (h : 0 ≤ alpha) :
    soft_threshold x alpha false = signQ x * max (|x| - alpha) 0 ∧
    soft_threshold x alpha true = max (signQ x * max (|x| - alpha) 0) 0 ∧
    soft_threshold 3 1 false = 2 ∧
    soft_threshold (-3) 5 false = 0 ∧
    soft_threshold (-3) 1 true = 0 := by
  have h1 : soft_threshold x alpha false = signQ x * max (|x| - alpha) 0 := by
    unfold soft_threshold signQ
    rcases lt_trichotomy x 0 with hx | hx | hx
    · simp [hx]
    · subst hx
      simp [max_eq_right (neg_nonpos.mpr h)]
    · simp [not_lt.mpr hx.le, hx.ne']
  have h2 : soft_threshold x alpha true
      = max (soft_threshold x alpha false) 0 := by
    simp [soft_threshold]
  refine ⟨h1, by rw [h2, h1], ?_, ?_, ?_⟩
  · show (if (3 : ℚ) < 0 then (-1 : ℚ) else 1) * max (|(3 : ℚ)| - 1) 0 = 2
    norm_num
  · show (if (-3 : ℚ) < 0 then (-1 : ℚ) else 1) * max (|(-3 : ℚ)| - 5) 0 = 0
    norm_num
  · show max ((if (-3 : ℚ) < 0 then (-1 : ℚ) else 1) * max (|(-3 : ℚ)| - 1) 0) 0 = 0
    norm_num

theorem claim_C9_soft_threshold_witness :
    soft_threshold 3 1 false = signQ 3 * max (|(3 : ℚ)| - 1) 0 :=
  (claim_C9_soft_threshold 3 1 (by norm_num)).1

/-- C3: one `RecursiveLeastSquares::update` step computes
`r = 1 + (xᵀ·P·x)/λ`, `K = (P·x)/(r·λ)`, `e = y − xᵀ·coef`, sets
`coef ← coef + K·e` and `P ← P/λ − r·(K·Kᵀ)` (all right-hand sides taken at
the pre-update state), and the forgetting factor is `exp(ln(0.5)/half_life)`
when a half-life is supplied and `1` otherwise. -/
theorem claim_C3_rls_update :
    (∀ (F : Type) [Field F] (m : ℕ) (s : RecursiveLeastSquares F m)
        (x : Fin m → F) (y : F),
      let ff := s.forgetting_factor
      let r := 1 + (x ᵥ* s.p) ⬝ᵥ x / ff
      let K : Fin m → F := fun i => (s.p *ᵥ x) i / (r * ff)
      let e := y - x ⬝ᵥ s.coef
      (s.update x y).coef = (fun i => s.coef i + K i * e) ∧
      (s.update x y).p = Matrix.of (fun i j => s.p i j / ff - r * (K i * K j)) ∧
      (s.update x y).k = K ∧
      (s.update x y).forgetting_factor = ff) ∧
    (∀ (m : ℕ) (lam h : ℝ) (init : Option (Fin m → ℝ)),
      (RecursiveLeastSquares.new m lam (some h) init).forgetting_factor
        = Real.exp (Real.log 0.5 / h)) ∧
    (∀ (m : ℕ) (lam : ℝ) (init : Option (Fin m → ℝ)),
      (RecursiveLeastSquares.new m lam none init).forgetting_factor = 1) := by
  refine ⟨?_, fun m lam h init => rfl, fun m lam init => rfl⟩
  intro F _ m s x y
  refine ⟨rfl, ?_, rfl, rfl⟩
  show (Matrix.of fun i j =>
      s.p i j / s.forgetting_factor - _ * _ * _ : Matrix (Fin m) (Fin m) F) = _
  ext i j
  simp only [Matrix.of_apply]
  ring

/-- C4: in `solve_recursive_least_squares`, an invalid sample leaves the
estimator state untouched and the recorded row repeats the previous
coefficient vector (the initial coefficient vector while no valid sample has
occurred yet), and the output has exactly one row per input sample. -/
theorem claim_C4_rls_driver (m : ℕ) (y : ℕ → ℝ) (x : ℕ → Fin m → ℝ)
    (n : ℕ) (half_life : Option ℝ) (cov : Option ℝ)
    (mean : Option (Fin m → ℝ)) (is_valid : ℕ → Bool) :
    (solve_recursive_least_squares m y x n half_life cov mean is_valid).length
      = n ∧
    (∀ t, is_valid t = false →
      rlsStateAt m y x half_life cov mean is_valid (t + 1)
        = rlsStateAt m y x half_life cov mean is_valid t ∧
      (t < n →
        (solve_recursive_least_squares m y x n half_life cov mean is_valid)[t]?
          = some (rlsStateAt m y x half_life cov mean is_valid t).coef)) ∧
    (∀ t, (∀ u, u ≤ t → is_valid u = false) → t < n →
      (solve_recursive_least_squares m y x n half_life cov mean is_valid)[t]?
        = some (RecursiveLeastSquares.new m (cov.getD 10.0) half_life
            mean).coef) := by
  have hstep : ∀ t, is_valid t = false →
      rlsStateAt m y x half_life cov mean is_valid (t + 1)
        = rlsStateAt m y x half_life cov mean is_valid t := by
    intro t ht
    rw [rlsStateAt]
    simp [ht]
  have hrow : ∀ t, t < n →
      (solve_recursive_least_squares m y x n half_life cov mean is_valid)[t]?
        = some (rlsStateAt m y x half_life cov mean is_valid (t + 1)).coef := by
    intro t ht
    simp [solve_recursive_least_squares, List.getElem?_map,
      List.getElem?_range, ht]
  refine ⟨by simp [solve_recursive_least_squares], ?_, ?_⟩
  · intro t ht
    exact ⟨hstep t ht, fun htn => by rw [hrow t htn, hstep t ht]⟩
  · intro t hall htn
    have hinit : ∀ t', (∀ u, u ≤ t' → is_valid u = false) →
        rlsStateAt m y x half_life cov mean is_valid (t' + 1)
          = RecursiveLeastSquares.new m (cov.getD 10.0) half_life mean := by
      intro t'
      induction t' with
      | zero =>
        intro hv
        rw [hstep 0 (hv 0 le_rfl), rlsStateAt]
      | succ u ih =>
        intro hv
        rw [hstep (u + 1) (hv (u + 1) le_rfl)]
        exact ih fun v hvle => hv v (Nat.le_succ_of_le hvle)
    rw [hrow t htn, hinit t hall]

theorem claim_C4_rls_driver_witness :
    (solve_recursive_least_squares 1 (fun _ => 1) (fun _ _ => 1) 1 none none
        none (fun _ => false))[0]?
      = some (RecursiveLeastSquares.new 1 ((none : Option ℝ).getD 10.0) none
          none).coef :=
  (claim_C4_rls_driver 1 (fun _ => 1) (fun _ _ => 1) 1 none none none
    (fun _ => false)).2.2 0 (fun _ _ => rfl) (by norm_num)

/-- C7: `solve_ols` uses the explicitly requested method when it is QR or
SVD; with no method it selects QR when samples exceed features and SVD
otherwise; requesting Cholesky, LU or CD fails fast with an invalid-parameter
error before any backend runs. -/
theorem claim_C7_solve_ols_method {n k : ℕ}
    (qr : (Fin n → ℚ) → Matrix (Fin n) (Fin k) ℚ → Fin k → ℚ)
    (svd : (Fin n → ℚ) → Matrix (Fin n) (Fin k) ℚ → Option ℚ → Fin k → ℚ)
    (y : Fin n → ℚ) (x : Matrix (Fin n) (Fin k) ℚ) (rcond : Option ℚ) :
    solve_ols qr svd y x (some SolveMethod.QR) rcond = Except.ok (qr y x) ∧
    solve_ols qr svd y x (some SolveMethod.SVD) rcond
      = Except.ok (svd y x rcond) ∧
    (k < n → solve_ols qr svd y x none rcond = Except.ok (qr y x)) ∧
    (n ≤ k → solve_ols qr svd y x none rcond = Except.ok (svd y x rcond)) ∧
    (∀ m, m = SolveMethod.Cholesky ∨ m = SolveMethod.LU ∨ m = SolveMethod.CD →
      solve_ols qr svd y x (some m) rcond
        = Except.error
            "Only QR and SVD are currently supported solve methods for OLS.") := by
  refine ⟨rfl, rfl, ?_, ?_, ?_⟩
  · intro h
    simp [solve_ols, Except.bind, h]
  · intro h
    simp [solve_ols, Except.bind, not_lt.mpr h]
  · rintro m (rfl | rfl | rfl) <;> rfl

theorem claim_C7_solve_ols_method_witness :
    @solve_ols 2 1 (fun _ _ _ => (0 : ℚ)) (fun _ _ _ _ => (0 : ℚ))
        (fun _ => 1) (Matrix.of fun _ _ => 1) none none
      = Except.ok (fun _ => (0 : ℚ)) :=
  (@claim_C7_solve_ols_method 2 1 (fun _ _ _ => (0 : ℚ))
    (fun _ _ _ _ => (0 : ℚ)) (fun _ => 1) (Matrix.of fun _ _ => 1) none).2.2.1
    (by norm_num)

/-- C8: `inv` with `use_cholesky = true` returns the Cholesky factorization
inverse when the backend succeeds; on backend failure it falls back to the LU
inverse and only emits a console diagnostic (the result type is total, so no
failure is ever raised); with `use_cholesky = false` it goes straight to LU.
`solve_normal_equations` follows the same fallback policy. -/
theorem claim_C8_cholesky_fallback {k : ℕ}
    (chol : Mat k k → Option (Mat k k)) (lu : Mat k k → Mat k k)
    (chol_solve : Mat k k → (Fin k → ℚ) → Option (Fin k → ℚ))
    (lu_solve : Mat k k → (Fin k → ℚ) → Fin k → ℚ)
    (A : Mat k k) (b : Fin k → ℚ) :
    (∀ ci, chol A = some ci → inv chol lu A true = (ci, [])) ∧
    (chol A = none → inv chol lu A true
      = (lu A,
          ["Cholesky decomposition failed, falling back to LU decomposition"])) ∧
    inv chol lu A false = (lu A, []) ∧
    (∀ v, chol_solve A b = some v →
      solve_normal_equations chol_solve lu_solve A b true = (v, [])) ∧
    (chol_solve A b = none →
      solve_normal_equations chol_solve lu_solve A b true
        = (lu_solve A b,
            ["Cholesky decomposition failed, falling back to LU decomposition"])) ∧
    solve_normal_equations chol_solve lu_solve A b false
      = (lu_solve A b, []) := by
  refine ⟨?_, ?_, rfl, ?_, ?_, rfl⟩
  · intro ci h
    simp [inv, h]
  · intro h
    simp [inv, h]
  · intro v h
    simp [solve_normal_equations, h]
  · intro h
    simp [solve_normal_equations, h]

theorem claim_C8_cholesky_fallback_witness :
    @inv 1 (fun _ => none) (fun a => a) 1 true
      = (1, ["Cholesky decomposition failed, falling back to LU decomposition"]) :=
  (@claim_C8_cholesky_fallback 1 (fun _ => none) (fun a => a)
    (fun _ _ => none) (fun _ b => b) 1 (fun _ => 0)).2.1 rfl

/-- C2: given `Ainv = A⁻¹` for invertible `A`, invertible `C`, and an
invertible updated matrix, `woodbury_update(Ainv, U, C, V, c_is_diag)`
returns `A⁻¹ − A⁻¹·U·(C⁻¹ + V·A⁻¹·U)⁻¹·V·A⁻¹`, which is the inverse of
`A + U·C·V`; when `c_is_diag` is true (used with a diagonal `C`), `C⁻¹` is
taken as the per-element reciprocal of `C`'s diagonal instead of a general
matrix inverse, with the same result. -/
theorem claim_C2_woodbury {kk r : ℕ} (A : Mat kk kk) (U : Mat kk r)
    (C : Mat r r) (V : Mat r kk) (d : Fin r → ℚ)
    (hA : IsUnit A.det) (hC : IsUnit C.det)
    (hS : IsUnit (A + U * C * V).det)
    (hd : ∀ i, d i ≠ 0)
    (hSd : IsUnit (A + U * Matrix.diagonal d * V).det) :
    woodbury_update A⁻¹ U C V none
        = A⁻¹ - A⁻¹ * U * (C⁻¹ + V * A⁻¹ * U)⁻¹ * V * A⁻¹ ∧
    (A + U * C * V) * woodbury_update A⁻¹ U C V none = 1 ∧
    woodbury_update A⁻¹ U C V none = (A + U * C * V)⁻¹ ∧
    inv_diag (Matrix.diagonal d) = Matrix.diagonal (fun i => (d i)⁻¹) ∧
    woodbury_update A⁻¹ U (Matrix.diagonal d) V (some true)
      = (A + U * Matrix.diagonal d * V)⁻¹ := by
  have hgen := woodbury_update_eq A U C V none hA hC hS
    (by rw [if_neg (by simp)]; exact mInv_eq_inv C)
  have hCd : IsUnit (Matrix.diagonal d).det := by
    rw [Matrix.det_diagonal, isUnit_iff_ne_zero]
    exact Finset.prod_ne_zero_iff.mpr fun i _ => hd i
  have hdiag := woodbury_update_eq A U (Matrix.diagonal d) V (some true) hA
    hCd hSd (by rw [if_pos rfl]; exact inv_diag_eq_inv d hd)
  refine ⟨hgen.1, ?_, hgen.2, inv_diag_diagonal d, hdiag.2⟩
  rw [hgen.2]
  exact Matrix.mul_nonsing_inv _ hS

theorem claim_C2_woodbury_witness :
    (!![(2 : ℚ)] + !![(1 : ℚ)] * !![(3 : ℚ)] * !![(1 : ℚ)]) *
        woodbury_update (!![(2 : ℚ)])⁻¹ !![(1 : ℚ)] !![(3 : ℚ)] !![(1 : ℚ)] none
      = 1 := by
  have hA : IsUnit (!![(2 : ℚ)]).det := by
    rw [Matrix.det_fin_one, isUnit_iff_ne_zero]
    norm_num
  have hC : IsUnit (!![(3 : ℚ)]).det := by
    rw [Matrix.det_fin_one, isUnit_iff_ne_zero]
    norm_num
  have hS : IsUnit ((!![(2 : ℚ)] + !![(1 : ℚ)] * !![(3 : ℚ)] * !![(1 : ℚ)])).det := by
    rw [Matrix.det_fin_one, isUnit_iff_ne_zero]
    norm_num [Matrix.mul_apply, Fin.sum_univ_one]
  have hd : ∀ i : Fin 1, (![(3 : ℚ)]) i ≠ 0 := by
    intro i
    fin_cases i
    norm_num
  have hdg : Matrix.diagonal ![(3 : ℚ)] = !![(3 : ℚ)] := by
    ext i j
    fin_cases i
    fin_cases j
    simp [Matrix.diagonal_apply]
  have hSd : IsUnit ((!![(2 : ℚ)] + !![(1 : ℚ)] * Matrix.diagonal ![(3 : ℚ)] * !![(1 : ℚ)])).det := by
    rw [hdg]
    exact hS
  exact (claim_C2_woodbury !![(2 : ℚ)] !![(1 : ℚ)] !![(3 : ℚ)] !![(1 : ℚ)]
    ![(3 : ℚ)] hA hC hS hd hSd).2.1

/-- C6: every `solve_rolling_ols` output row with time index `t < mp − 1` is
the NaN placeholder (modelled as `none`), and the row at `t = mp − 1` holds
the coefficients obtained by solving the normal equations formed over exactly
the first `min_periods` rows of `X` and `y`, with the ridge penalty `alpha·I`
added when `alpha > 0` (in Woodbury mode the warm-up row is the direct
inverse applied to `XᵀY`; the Gram matrix is symmetric, so its transposed
inverse is the same solve). -/
theorem claim_C6_rolling_warmup (k : ℕ) (y : ℕ → ℚ) (X : ℕ → Fin k → ℚ)
    (n w mp : ℕ) (alpha : ℚ) (uw : Option Bool)
    (hmp : 1 ≤ mp) (hmpn : mp ≤ n) :
    (∀ t, t + 1 < mp →
      solve_rolling_ols k y X n w (some mp) uw (some alpha) t = none) ∧
    solve_rolling_ols k y X n w (some mp) uw (some alpha) (mp - 1)
      = some (solveNE
          ((∑ t ∈ Finset.range mp, outer_product (X t) (X t)) +
            (if 0 < alpha then alpha • (1 : Mat k k) else 0))
          (∑ t ∈ Finset.range mp, y t • X t)) := by
  constructor
  · intro t ht
    have htn : t < n := by omega
    simp only [solve_rolling_ols, Option.getD_some]
    rw [if_pos htn, if_pos ht]
  · have htn : mp - 1 < n := by omega
    have hts : mp - 1 + 1 = mp := Nat.sub_add_cancel hmp
    have hT : (mInv (gram0 k X mp alpha))ᵀ *ᵥ xty0 k y X mp
        = solveNE (gram0 k X mp alpha) (xty0 k y X mp) := by
      rw [mInv_transpose _ (gram0_transpose k X mp alpha)]
      rfl
    simp only [solve_rolling_ols, Option.getD_some]
    rw [if_pos htn, hts, if_neg (lt_irrefl mp), if_pos rfl]
    rw [← gram0_eq_sum, ← xty0_eq_sum]
    cases hu : uw.getD (decide (60 < k)) with
    | true => rw [if_pos rfl, hT]
    | false => rw [if_neg Bool.false_ne_true]

theorem claim_C6_rolling_warmup_witness :
    solve_rolling_ols 1 (fun t => (t : ℚ)) (fun _ _ => 1) 1 1 (some 1) none
        (some 0) (1 - 1)
      = some (solveNE
          ((∑ t ∈ Finset.range 1,
              outer_product ((fun _ _ => (1 : ℚ)) t) ((fun _ _ => (1 : ℚ)) t)) +
            (if (0 : ℚ) < 0 then (0 : ℚ) • (1 : Mat 1 1) else 0))
          (∑ t ∈ Finset.range 1, ((t : ℚ)) • (fun _ => (1 : ℚ)))) :=
  (claim_C6_rolling_warmup 1 (fun t => (t : ℚ)) (fun _ _ => 1) 1 1 1 0 none
    le_rfl le_rfl).2

/-- C10: when `min_periods` is not supplied, `solve_rolling_ols` defaults it
to `min(k, window_size)` — not to `1` — so the first defined coefficient row
appears at index `window_size − 1` when `k ≥ window_size` and at index
`k − 1` when `k < window_size`, every earlier row being the placeholder. -/
theorem claim_C10_default_min_periods (k : ℕ) (y : ℕ → ℚ) (X : ℕ → Fin k → ℚ)
    (n w : ℕ) (uw : Option Bool) (alpha : Option ℚ)
    (hk : 1 ≤ k) (hw : 1 ≤ w) (hn : min k w ≤ n) :
    solve_rolling_ols k y X n w none uw alpha
      = solve_rolling_ols k y X n w (some (min k w)) uw alpha ∧
    (∀ t, t + 1 < min k w →
      solve_rolling_ols k y X n w none uw alpha t = none) ∧
    (w ≤ k →
      (solve_rolling_ols k y X n w none uw alpha (w - 1)).isSome = true) ∧
    (k < w →
      (solve_rolling_ols k y X n w none uw alpha (k - 1)).isSome = true) := by
  have hwarm : ∀ t, t + 1 = min k w →
      (solve_rolling_ols k y X n w none uw alpha t).isSome = true := by
    intro t ht
    have htn : t < n := by omega
    have htm : ¬t + 1 < min k w := by omega
    simp only [solve_rolling_ols, Option.getD_none]
    rw [if_pos htn, if_neg htm, if_pos ht]
    cases uw.getD (decide (60 < k)) <;> simp
  refine ⟨rfl, ?_, ?_, ?_⟩
  · intro t ht
    have htn : t < n := by omega
    simp only [solve_rolling_ols, Option.getD_none]
    rw [if_pos htn, if_pos ht]
  · intro hwk
    exact hwarm (w - 1) (by omega)
  · intro hkw
    exact hwarm (k - 1) (by omega)

theorem claim_C10_default_min_periods_witness :
    (solve_rolling_ols 1 (fun t => (t : ℚ)) (fun _ _ => 1) 1 1 none none none
        (1 - 1)).isSome = true :=
  (claim_C10_default_min_periods 1 (fun t => (t : ℚ)) (fun _ _ => 1) 1 1 none
    none le_rfl le_rfl (by norm_num)).2.2.1 le_rfl

/-- C5: `solve_elastic_net` starts from the zero coefficient vector with
residual `y` and maintains `r = y − X·w` across every pass; each coordinate
update divides the soft-thresholded correlation (threshold
`alpha·l1_ratio·n`) by `xⱼᵀxⱼ + alpha·(1−l1_ratio)·n`; the loop stops right
after a pass whose coefficient change has Euclidean norm below `tol`
(default `1e-5`, compared via squares), runs at most `max_iter` passes
(default `1000`, fuel `0` returns the current state), and the final
coefficients are returned as a total function — no error on
non-convergence. -/
theorem claim_C5_elastic_net :
    (∀ (n k : ℕ) (y : Fin n → ℚ) (x : Matrix (Fin n) (Fin k) ℚ) (alpha : ℚ)
        (l1r : Option ℚ) (pos : Option Bool),
      solve_elastic_net y x alpha l1r none none pos
        = solve_elastic_net y x alpha l1r (some 1000) (some (1 / 100000)) pos) ∧
    (∀ (n k : ℕ) (y : Fin n → ℚ) (x : Matrix (Fin n) (Fin k) ℚ)
        (alpha l1r tol : ℚ) (pos : Bool) (mi : ℕ),
      (en_loop x (xᵀ * x) (alpha * n) l1r pos tol mi (fun _ => 0, y)).2
        = fun i => y i - ∑ jj, x i jj *
            (en_loop x (xᵀ * x) (alpha * n) l1r pos tol mi
              (fun _ => 0, y)).1 jj) ∧
    (∀ (n k : ℕ) (x : Matrix (Fin n) (Fin k) ℚ) (alpha l1r : ℚ) (pos : Bool)
        (s : (Fin k → ℚ) × (Fin n → ℚ)) (j : Fin k),
      (en_coord x (xᵀ * x) (alpha * n) l1r pos s j).1 j
        = soft_threshold
            ((fun i => x i j) ⬝ᵥ fun i => s.2 i + x i j * s.1 j)
            (alpha * l1r * n) pos
          / ((fun i => x i j) ⬝ᵥ (fun i => x i j) + alpha * (1 - l1r) * n)) ∧
    (∀ (n k : ℕ) (x : Matrix (Fin n) (Fin k) ℚ) (xtx : Mat k k)
        (alpha l1r tol : ℚ) (pos : Bool) (m : ℕ)
        (s : (Fin k → ℚ) × (Fin n → ℚ)),
      (0 < tol ∧
          (∑ i, ((en_pass x xtx alpha l1r pos s).1 i - s.1 i) ^ 2) < tol ^ 2 →
        en_loop x xtx alpha l1r pos tol (m + 1) s
          = en_pass x xtx alpha l1r pos s) ∧
      en_loop x xtx alpha l1r pos tol 0 s = s) ∧
    (∀ (n k : ℕ) (y : Fin n → ℚ) (x : Matrix (Fin n) (Fin k) ℚ)
        (alpha l1r tol : ℚ) (mi : ℕ) (pos : Bool),
      solve_elastic_net y x alpha (some l1r) (some mi) (some tol) (some pos)
        = (en_loop x (xᵀ * x) (alpha * n) l1r pos tol mi
            (fun _ => 0, y)).1) := by
  refine ⟨fun n k y x alpha l1r pos => rfl, ?_, ?_, ?_,
    fun n k y x alpha l1r tol mi pos => rfl⟩
  · intro n k y x alpha l1r tol pos mi
    apply en_loop_residual
    funext i
    simp
  · intro n k x alpha l1r pos s j
    have hdd : (xᵀ * x) j j + alpha * (n : ℚ) * (1 - l1r)
        = (fun i => x i j) ⬝ᵥ (fun i => x i j) + alpha * (1 - l1r) * (n : ℚ) := by
      rw [Matrix.mul_apply]
      simp only [Matrix.dotProduct, Matrix.transpose_apply]
      ring
    have hth : alpha * (n : ℚ) * l1r = alpha * l1r * (n : ℚ) := by ring
    simp only [en_coord, Function.update_same]
    rw [hdd, hth]
  · intro n k x xtx alpha l1r tol pos m s
    constructor
    · intro h
      rw [en_loop]
      simp only [if_pos h]
    · rfl

theorem claim_C5_elastic_net_witness :
    en_loop !![(1 : ℚ)] !![(1 : ℚ)] 0 0 false 1 1 (fun _ => 0, fun _ => 0)
      = en_pass !![(1 : ℚ)] !![(1 : ℚ)] 0 0 false (fun _ => 0, fun _ => 0) := by
  have hp : (en_pass !![(1 : ℚ)] !![(1 : ℚ)] 0 0 false
      (fun _ => 0, fun _ => 0)).1 = (fun _ => (0 : ℚ)) := by
    show ((List.finRange 1).foldl
      (en_coord !![(1 : ℚ)] !![(1 : ℚ)] 0 0 false) (fun _ => 0, fun _ => 0)).1 = _
    rw [show List.finRange 1 = [0] from rfl]
    simp only [List.foldl_cons, List.foldl_nil, en_coord, soft_threshold]
    norm_num
  refine (claim_C5_elastic_net.2.2.2.1 1 1 !![(1 : ℚ)] !![(1 : ℚ)] 0 0 1 false 0
    (fun _ => 0, fun _ => 0)).1 ⟨by norm_num, ?_⟩
  rw [hp]
  norm_num

/-- C1: for the same `y`, `X`, `window_size`, `min_periods` and `alpha`,
`solve_rolling_ols` with `use_woodbury = true` and with
`use_woodbury = false` produce the same coefficient row at every time step
`t ≥ min_periods` (exact rational arithmetic gives equality, hence agreement
within any tolerance such as `1e-6`), provided each sliding-window Gram
matrix is invertible — the condition under which both branches' backend
results are defined. -/
theorem claim_C1_rolling_woodbury_equiv (k : ℕ) (y : ℕ → ℚ)
    (X : ℕ → Fin k → ℚ) (n w mp : ℕ) (alpha : ℚ)
    (hinv : ∀ j, j ≤ n - mp → (gramAt k X w mp alpha j).det ≠ 0) :
    ∀ t, mp ≤ t → t < n →
      solve_rolling_ols k y X n w (some mp) (some true) (some alpha) t
        = solve_rolling_ols k y X n w (some mp) (some false) (some alpha) t := by
  intro t hmt htn
  have ht1 : ¬t + 1 < mp := by omega
  have ht2 : ¬t + 1 = mp := by omega
  have hj : t + 1 - mp ≤ n - mp := by omega
  have hwi := winvAt_eq_inv k y X w mp alpha (t + 1 - mp)
    (fun j' hj' => hinv j' (le_trans hj' hj))
  simp only [solve_rolling_ols, Option.getD_some]
  rw [if_pos htn, if_neg ht1, if_neg ht2, if_pos htn, if_neg ht1, if_neg ht2,
    if_true, if_neg Bool.false_ne_true, hwi]
  show some _ = some (solveNE _ _)
  rw [solveNE, mInv_eq_inv]

theorem claim_C1_rolling_woodbury_equiv_witness :
    solve_rolling_ols 1 (fun t => (t : ℚ)) (fun _ _ => 1) 2 2 (some 1)
        (some true) (some 0) 1
      = solve_rolling_ols 1 (fun t => (t : ℚ)) (fun _ _ => 1) 2 2 (some 1)
        (some false) (some 0) 1 := by
  have hinv : ∀ j, j ≤ 2 - 1 →
      (gramAt 1 (fun _ _ => 1) 2 1 0 j).det ≠ 0 := by
    intro j hj
    interval_cases j
    · rw [gramAt, Matrix.det_fin_one]
      norm_num [gram0, warmX, Matrix.mul_apply, Fin.sum_univ_one]
    · rw [gramAt]
      norm_num [Matrix.det_fin_one, gramAt, gram0, warmX, outer_product,
        Matrix.mul_apply, Fin.sum_univ_one]
  exact claim_C1_rolling_woodbury_equiv 1 (fun t => (t : ℚ)) (fun _ _ => 1)
    2 2 1 0 hinv 1 le_rfl (by norm_num)
